import Mathlib

/-!
Verification development for the Wikipedia Music Tree repository
(code/build_matrix_from_raw_data.py and code/build_graph_mentions_to_root.py).

The Python code is embedded shallowly: strings are Lean `String`s, the
character-level scans of the source are reproduced by structural recursion
over `List Char`, counts are `Nat`, and the places where the source can
raise an exception (a worker crash on a NaN text cell, an IndexError on a
malformed `name:count` token) are modelled with `Except Unit`.
-/

namespace WikipediaMusicTree

/-! ### Python string primitives used by the source -/

/-- Scanner behind Python's `str.count`: non-overlapping occurrences of
`pat`, scanning left to right.  After a match, the next `pat.length - 1`
characters are skipped (the `skip` argument), so the scan resumes right
after the matched occurrence, exactly as CPython does.  Only meaningful for
a non-empty `pat`; `pyCount` handles the empty pattern separately. -/
def countOccAux (pat : List Char) : List Char → Nat → Nat
  | [], _ => 0
  | _ :: rest, Nat.succ k => countOccAux pat rest k
  | c :: rest, 0 =>
    if pat.isPrefixOf (c :: rest) then 1 + countOccAux pat rest (pat.length - 1)
    else countOccAux pat rest 0

/-- Python `s.count(pat)`: the number of non-overlapping occurrences of
`pat` in `s`; for the empty pattern CPython returns `len(s) + 1`. -/
def pyCount (s pat : String) : Nat :=
  if pat.data.isEmpty then s.data.length + 1 else countOccAux pat.data s.data 0

/-- Python `name.split(' ', 1)`: the part before the first space, and the
remainder after it when a space exists. -/
def splitFirstSpace : List Char → List Char × Option (List Char)
  | [] => ([], none)
  | c :: rest =>
    if c = ' ' then ([], some rest)
    else
      let p := splitFirstSpace rest
      (c :: p.1, p.2)

/-- Python `s.split(sep)` for a one-character separator: `""` gives `[""]`,
separators at the ends give empty pieces. -/
def pySplit (sep : Char) : List Char → List (List Char)
  | [] => [[]]
  | c :: rest =>
    if c = sep then [] :: pySplit sep rest
    else
      match pySplit sep rest with
      | [] => [[c]]
      | h :: t => (c :: h) :: t

/-- Python's `needle in hay` (and pandas `str.contains` with `re.escape`d
needle): substring containment. -/
def listContains (hay needle : List Char) : Bool :=
  needle.isPrefixOf hay ||
    match hay with
    | [] => false
    | _ :: t => listContains t needle

/-- The suffix after the first `')'`, when one exists. -/
def findRparen : List Char → Option (List Char)
  | [] => none
  | c :: rest => if c = ')' then some rest else findRparen rest

/-- Fuelled scanner behind `re.sub(r'\([^)]*\)', '', s)`: each match of the
pattern runs from a `'('` to the first `')'` after it; a `'('` with no
later `')'` matches nothing and is kept.  With fuel `≥` the list's length
the fuel never runs out. -/
def removeParensF : Nat → List Char → List Char
  | 0, l => l
  | _ + 1, [] => []
  | n + 1, c :: rest =>
    if c = '(' then
      match findRparen rest with
      | some rest2 => removeParensF n rest2
      | none => c :: removeParensF n rest
    else c :: removeParensF n rest

/-- `re.sub(r'\([^)]*\)', '', name)`: every parenthesized span, parentheses
included, removed.  Note the source does not strip the blank that precedes
a trailing parenthetical, so `"Boston (band)"` maps to `"Boston "`. -/
def removeParens (name : String) : String :=
  String.mk (removeParensF name.data.length name.data)

/-- Code-point comparison of strings, the order Python's `list.sort` uses
on `str` (lexicographic on code points), as an executable `Bool`. -/
def lexLe : List Char → List Char → Bool
  | [], _ => true
  | _ :: _, [] => false
  | a :: as, b :: bs =>
    if a.toNat < b.toNat then true
    else if b.toNat < a.toNat then false
    else lexLe as bs

/-- `a <= b` on strings by code points. -/
def strLe (a b : String) : Bool := lexLe a.data b.data

/-- Python `list.sort()` on a list of names: a stable sort under the
code-point order (an insertion sort here; on a duplicate-free list any
stable sort gives the same result). -/
def sortArtists (l : List String) : List String :=
  List.insertionSort (fun a b => strLe a b = true) l

/-! ### build_matrix_from_raw_data.py: the mention counter and matrix builder -/

/-- `link_non_capitalized_double_check`: the source splits a name at its
first blank and, when the first word is exactly `"The"`, lower-cases that
word and rejoins; `none` when the first word is not `"The"`. -/
def theVariant (name : String) : Option String :=
  let p := splitFirstSpace name.data
  if p.1 = "The".data then
    some (String.mk ("the".data ++ match p.2 with
      | some rest => ' ' :: rest
      | none => []))
  else none

/-- `clean_mentioned_artist`: the artist's name with Wikipedia's
disambiguation parentheticals removed. -/
def clean_mentioned_artist (mentionedArtist : String) : String :=
  removeParens mentionedArtist

/-- `number_of_mentions_via_hyperlink`: occurrences of the artist's name in
hyperlink syntax.  The source counts `"[[" + T + "]]"` and `"[[" + T + "|"`;
when the name's first word is `"The"` it then adds the count of
`"[[" + variant + "]]"` and, as written in the source, a second count of
`"[[" + T + "|"` (the capitalized pipe pattern again, not the lower-cased
one). -/
def number_of_mentions_via_hyperlink (wikipediaText mentionedArtist : String) : Nat :=
  let base := pyCount wikipediaText ("[[" ++ mentionedArtist ++ "]]")
      + pyCount wikipediaText ("[[" ++ mentionedArtist ++ "|")
  match theVariant mentionedArtist with
  | some v =>
      pyCount wikipediaText ("[[" ++ v ++ "]]")
        + pyCount wikipediaText ("[[" ++ mentionedArtist ++ "|")
        + base
  | none => base

/-- `number_of_mentions`: occurrences of the parenthesis-stripped name,
plus, when its first word is `"The"`, occurrences of the lower-cased-first-
word variant of the stripped name. -/
def number_of_mentions (wikipediaText mentionedArtist : String) : Nat :=
  let clean := clean_mentioned_artist mentionedArtist
  let base := pyCount wikipediaText clean
  match theVariant clean with
  | some v => pyCount wikipediaText v + base
  | none => base

/-- The `(mentioned artist, count)` entries the search loop of
`process_wikipedia_articles_parallel` appends to `mentioned_artists_string`,
in roster order: a candidate other than the article's own artist is emitted,
with its full `number_of_mentions`, whenever its hyperlink count is
positive. -/
def mentioned_artists_entries (full_artists_list : List String)
    (artist_name wikipedia_text : String) : List (String × Nat) :=
  full_artists_list.filterMap fun mentioned_artist =>
    if artist_name = mentioned_artist then none
    else if 0 < number_of_mentions_via_hyperlink wikipedia_text mentioned_artist then
      some (mentioned_artist, number_of_mentions wikipedia_text mentioned_artist)
    else none

/-- `mentioned_artists_string`: the `NAME:COUNT;NAME:COUNT` serialization of
a row's entries (the source appends `";"` after every entry and trims the
last one, which is the same as interleaving). -/
def mentioned_artists_string (full_artists_list : List String)
    (artist_name wikipedia_text : String) : String :=
  String.intercalate ";"
    ((mentioned_artists_entries full_artists_list artist_name wikipedia_text).map
      fun p => p.1 ++ ":" ++ toString p.2)

/-- One document handed to a worker: `(ARTIST_NAME, WIKIPEDIA_TEXT)`; a
missing text cell (pandas `NaN`) is `none`. -/
abbrev Document := String × Option String

/-- `pandas.drop_duplicates(subset=["ARTIST_NAME"])`: keep the first
document bearing each name; `seen` accumulates the names already kept. -/
def drop_duplicates : List Document → List String → List Document
  | [], _ => []
  | d :: rest, seen =>
    if d.1 ∈ seen then drop_duplicates rest seen
    else d :: drop_duplicates rest (d.1 :: seen)

/-- `mapE f l` is `pool.map` / a monadic map in `Except`: the first failing
element makes the whole call fail. -/
def mapE {α β : Type} (f : α → Except Unit β) : List α → Except Unit (List β)
  | [] => .ok []
  | a :: l =>
    match f a with
    | .error e => .error e
    | .ok b =>
      match mapE f l with
      | .error e => .error e
      | .ok bs => .ok (b :: bs)

/-- One worker call of `process_wikipedia_articles_parallel`: the document's
row, keyed by its artist.  The text cell is only read inside the candidate
loop, whose body is guarded by `artist_name != mentioned_artist`; so a
missing text cell (a NaN float, which has no `.count`) makes the worker
raise exactly when some roster candidate differs from the artist —
modelled as `.error ()`.  When no candidate differs, the loop never
touches the text and the returned row is empty. -/
def process_wikipedia_articles_parallel (full_artists_list : List String)
    (artist_wikipedia_article : Document) :
    Except Unit (String × List (String × Nat)) :=
  match artist_wikipedia_article.2 with
  | none =>
    if full_artists_list.any fun mentioned_artist =>
        decide (artist_wikipedia_article.1 ≠ mentioned_artist) then
      .error ()
    else .ok (artist_wikipedia_article.1, [])
  | some text =>
    .ok (artist_wikipedia_article.1,
      mentioned_artists_entries full_artists_list artist_wikipedia_article.1 text)

/-- `build_matrix`: deduplicate the documents by artist name, sort the full
roster, and run the worker on every remaining document.  `pool.map`
re-raises a worker's exception, so one failing document fails the build;
the merge step keys each returned row by its artist, so the rows are kept
here in document order (each claim below is order-independent across
rows). -/
def build_matrix (docs : List Document) :
    Except Unit (List (String × List (String × Nat))) :=
  let unique_docs := drop_duplicates docs []
  let full_artists_list := sortArtists (unique_docs.map Prod.fst)
  mapE (process_wikipedia_articles_parallel full_artists_list) unique_docs

/-! ### build_graph_mentions_to_root.py: the subgraph extractor -/

/-- One row of the persisted matrix: `(ARTIST_NAME, MENTIONED_ARTISTS)`. -/
abbrev MatrixRow := String × String

/-- An output record: `(Source, Target, Weight)`; the weight is the raw
text of the token's count field, as the source writes it to the CSV. -/
abbrev GraphEdge := String × String × String

/-- `df_matrix[df_matrix['MENTIONED_ARTISTS'].str.contains(re.escape(a))]`:
the artists whose serialized edge list contains `a`'s name as a substring. -/
def artists_that_mention (table : List MatrixRow) (a : String) : Finset String :=
  ((table.filter fun p => listContains p.2.data a.data).map Prod.fst).toFinset

/-- The depth loop of `main`: each round scans the table once for every
already-selected artist, accumulates the hits into `related` (which the
source never clears), then unions `related` into `selected`. -/
def selection_loop (table : List MatrixRow) :
    Nat → Finset String × Finset String → Finset String × Finset String
  | 0, st => st
  | n + 1, (sel, rel) =>
    let rel2 := rel ∪ sel.biUnion (artists_that_mention table)
    selection_loop table n (sel ∪ rel2, rel2)

/-- `selected_artists_list` after the depth loop: seeded with the root,
grown for `depth` rounds. -/
def selected_artists (table : List MatrixRow) (root : String) (depth : Nat) :
    Finset String :=
  (selection_loop table depth ({root}, ∅)).1

/-- One `related_artist` token of a row.  The source takes
`tok.rsplit(":")[0]`; when that name is selected it also reads
`tok.rsplit(":")[1]`, which raises IndexError on a token with no `':'` —
modelled as `.error ()`.  A token whose name is not selected is dropped. -/
def process_related_artist (sel : Finset String) (selected_artist : String)
    (tok : List Char) : Except Unit (Option GraphEdge) :=
  match pySplit ':' tok with
  | [] => .error ()
  | name :: rest =>
    if String.mk name ∈ sel then
      match rest with
      | [] => .error ()
      | cnt :: _ => .ok (some (selected_artist, String.mk name, String.mk cnt))
    else .ok none

/-- The records contributed by one selected artist's row: its serialized
edge list split on `';'`, each token kept when its target is selected. -/
def process_selected_artist (sel : Finset String) (selected_artist row : String) :
    Except Unit (List GraphEdge) :=
  (mapE (process_related_artist sel selected_artist) (pySplit ';' row.data)).map
    fun l => l.filterMap id

/-- The emission loop: every selected artist that has a row in the table
contributes its records.  The source iterates the selected set (a Python
set, unspecified order) and looks each name up in the table; with the
table's names unique that processes exactly the rows whose artist is
selected, taken here in table order. -/
def build_graph_rows (table : List MatrixRow) (sel : Finset String) :
    Except Unit (List GraphEdge) :=
  (mapE (fun p => process_selected_artist sel p.1 p.2)
    (table.filter fun p => p.1 ∈ sel)).map List.flatten

/-- The whole extraction of `main`: select for `depth` rounds from `root`,
then emit the surviving records. -/
def build_graph_mentions_to_root (table : List MatrixRow) (root : String)
    (depth : Nat) : Except Unit (List GraphEdge) :=
  build_graph_rows table (selected_artists table root depth)

/-- One clean round of the depth loop, for reasoning: keep everything
selected and add every artist whose row mentions (as a substring) a
selected name.  `selection_loop` computes iterates of this map. -/
def selection_step (table : List MatrixRow) (sel : Finset String) : Finset String :=
  sel ∪ sel.biUnion (artists_that_mention table)

/-! ### Definitions following the specification text, for comparison -/

/-- The gate patterns of the specification for a candidate `T`: the linked
forms of the raw name and, when the first word is `"The"`, of its
lower-cased-first-word variant. -/
def gatePatterns (T : String) : List String :=
  ["[[" ++ T ++ "]]", "[[" ++ T ++ "|"] ++
    match theVariant T with
    | some v => ["[[" ++ v ++ "]]", "[[" ++ v ++ "|"]
    | none => []

/-- Modelled from the spec (§4.2 step 1), for comparison with the source's
`number_of_mentions_via_hyperlink`: the hyperlink evidence as the sum of
the four gate-pattern counts, the lower-cased variant appearing with both
the `]]` and the `|` closer. -/
def spec_hyperlink_evidence (wikipediaText T : String) : Nat :=
  pyCount wikipediaText ("[[" ++ T ++ "]]")
    + pyCount wikipediaText ("[[" ++ T ++ "|")
    + match theVariant T with
      | some v =>
          pyCount wikipediaText ("[[" ++ v ++ "]]")
            + pyCount wikipediaText ("[[" ++ v ++ "|")
      | none => 0

/-- Modelled from the spec (§4.4 step 2), for comparison with the source's
substring scan: the target tokens of a serialized edge list, i.e. the name
part before `':'` of each `';'`-separated token. -/
def target_tokens (row : String) : List String :=
  (pySplit ';' row.data).map fun t => String.mk ((pySplit ':' t).headD [])

/-! ### Helper lemmas on the string primitives -/

theorem pySplit_ne_nil (sep : Char) (l : List Char) : pySplit sep l ≠ [] := by
  induction l with
  | nil => simp [pySplit]
  | cons c rest ih =>
    rw [pySplit]
    split
    · simp
    · cases h : pySplit sep rest with
      | nil => simp
      | cons a t => simp

theorem pySplit_of_not_mem {sep : Char} {l : List Char} (h : sep ∉ l) :
    pySplit sep l = [l] := by
  induction l with
  | nil => rfl
  | cons c rest ih =>
    rw [pySplit]
    have hc : ¬ c = sep := fun e => h (e ▸ List.mem_cons_self c rest)
    rw [if_neg hc, ih (fun hm => h (List.mem_cons_of_mem c hm))]

theorem pySplit_append {sep : Char} {a : List Char} (b : List Char) (h : sep ∉ a) :
    pySplit sep (a ++ sep :: b) = a :: pySplit sep b := by
  induction a with
  | nil => simp [pySplit]
  | cons c rest ih =>
    have hc : ¬ c = sep := fun e => h (e ▸ List.mem_cons_self c rest)
    rw [List.cons_append, pySplit, if_neg hc,
      ih (fun hm => h (List.mem_cons_of_mem c hm))]

/-- The first piece of a split is a prefix, every other piece an infix. -/
theorem pySplit_shape (sep : Char) (l : List Char) :
    ∃ h t, pySplit sep l = h :: t ∧ h <+: l ∧ ∀ tok ∈ t, tok <:+: l := by
  induction l with
  | nil => exact ⟨[], [], rfl, List.nil_prefix, by simp⟩
  | cons c rest ih =>
    obtain ⟨h, t, heq, hpre, hinf⟩ := ih
    rw [pySplit]
    by_cases hc : c = sep
    · refine ⟨[], pySplit sep rest, by rw [if_pos hc], List.nil_prefix, ?_⟩
      intro tok htok
      rw [heq, List.mem_cons] at htok
      rcases htok with htok | htok
      · subst htok
        exact List.infix_cons hpre.isInfix
      · exact List.infix_cons (hinf tok htok)
    · rw [if_neg hc, heq]
      refine ⟨c :: h, t, rfl, ?_, fun tok htok => List.infix_cons (hinf tok htok)⟩
      obtain ⟨s, hs⟩ := hpre
      exact ⟨s, by rw [List.cons_append, hs]⟩

theorem infix_of_mem_pySplit {sep : Char} {l tok : List Char}
    (h : tok ∈ pySplit sep l) : tok <:+: l := by
  obtain ⟨h0, t, heq, hpre, hinf⟩ := pySplit_shape sep l
  rw [heq, List.mem_cons] at h
  rcases h with h | h
  · exact h ▸ hpre.isInfix
  · exact hinf tok h

theorem listContains_of_infix {hay needle : List Char} (h : needle <:+: hay) :
    listContains hay needle = true := by
  induction hay with
  | nil =>
    rw [List.infix_nil] at h
    subst h
    rfl
  | cons c t ih =>
    rw [List.infix_cons_iff] at h
    rw [listContains, Bool.or_eq_true]
    rcases h with h | h
    · exact Or.inl (List.isPrefixOf_iff_prefix.mpr h)
    · exact Or.inr (ih h)

/-! ### Helper lemmas on `mapE` -/

theorem mapE_error_of_mem {α β : Type} {f : α → Except Unit β} {l : List α}
    {a : α} (ha : a ∈ l) (hf : f a = .error ()) : mapE f l = .error () := by
  induction l with
  | nil => cases ha
  | cons x l ih =>
    rw [mapE]
    rw [List.mem_cons] at ha
    rcases ha with ha | ha
    · subst ha
      rw [hf]
    · cases hx : f x with
      | error e => cases e; rfl
      | ok b => rw [ih ha]

theorem mapE_ok_of_forall {α β : Type} {f : α → Except Unit β} {l : List α}
    (h : ∀ a ∈ l, ∃ b, f a = .ok b) : ∃ bs, mapE f l = .ok bs := by
  induction l with
  | nil => exact ⟨[], rfl⟩
  | cons x l ih =>
    obtain ⟨b, hb⟩ := h x (List.mem_cons_self x l)
    obtain ⟨bs, hbs⟩ := ih fun a ha => h a (List.mem_cons_of_mem x ha)
    exact ⟨b :: bs, by rw [mapE, hb, hbs]⟩

theorem mem_of_mapE_ok {α β : Type} {f : α → Except Unit β} {l : List α}
    {bs : List β} (h : mapE f l = .ok bs) {a : α} (ha : a ∈ l) :
    ∃ b ∈ bs, f a = .ok b := by
  induction l generalizing bs with
  | nil => cases ha
  | cons x l ih =>
    rw [mapE] at h
    cases hx : f x with
    | error e => rw [hx] at h; cases h
    | ok b =>
      rw [hx] at h
      cases hrec : mapE f l with
      | error e => rw [hrec] at h; cases h
      | ok bs2 =>
        rw [hrec] at h
        cases h
        rw [List.mem_cons] at ha
        rcases ha with ha | ha
        · exact ⟨b, List.mem_cons_self b bs2, ha ▸ hx⟩
        · obtain ⟨b2, hb2, hfb2⟩ := ih hrec ha
          exact ⟨b2, List.mem_cons_of_mem b hb2, hfb2⟩

theorem of_mem_mapE_ok {α β : Type} {f : α → Except Unit β} {l : List α}
    {bs : List β} (h : mapE f l = .ok bs) {b : β} (hb : b ∈ bs) :
    ∃ a ∈ l, f a = .ok b := by
  induction l generalizing bs with
  | nil =>
    rw [mapE] at h
    cases h
    cases hb
  | cons x l ih =>
    rw [mapE] at h
    cases hx : f x with
    | error e => rw [hx] at h; cases h
    | ok b0 =>
      rw [hx] at h
      cases hrec : mapE f l with
      | error e => rw [hrec] at h; cases h
      | ok bs2 =>
        rw [hrec] at h
        cases h
        rw [List.mem_cons] at hb
        rcases hb with hb | hb
        · exact ⟨x, List.mem_cons_self x l, hb ▸ hx⟩
        · obtain ⟨a, ha, hfa⟩ := ih hrec hb
          exact ⟨a, List.mem_cons_of_mem x ha, hfa⟩

theorem mapE_ok_map {α β γ : Type} {f : α → Except Unit β} {l : List α}
    {bs : List β} (π : β → γ) (σ : α → γ)
    (hf : ∀ a b, f a = .ok b → π b = σ a) (h : mapE f l = .ok bs) :
    bs.map π = l.map σ := by
  induction l generalizing bs with
  | nil => rw [mapE] at h; cases h; rfl
  | cons x l ih =>
    rw [mapE] at h
    cases hx : f x with
    | error e => rw [hx] at h; cases h
    | ok b0 =>
      rw [hx] at h
      cases hrec : mapE f l with
      | error e => rw [hrec] at h; cases h
      | ok bs2 =>
        rw [hrec] at h
        cases h
        rw [List.map_cons, List.map_cons, ih hrec, hf x b0 hx]

/-! ### Helper lemmas on the code-point order and the roster -/

theorem lexLe_total (a : List Char) : ∀ b, lexLe a b = true ∨ lexLe b a = true := by
  induction a with
  | nil => intro b; exact Or.inl rfl
  | cons x as ih =>
    intro b
    cases b with
    | nil => exact Or.inr rfl
    | cons y bs =>
      simp only [lexLe]
      by_cases h1 : x.toNat < y.toNat
      · left
        rw [if_pos h1]
      · by_cases h2 : y.toNat < x.toNat
        · right
          rw [if_pos h2]
        · rw [if_neg h1, if_neg h2, if_neg h2, if_neg h1]
          exact ih bs

theorem lexLe_trans :
    ∀ a b c, lexLe a b = true → lexLe b c = true → lexLe a c = true := by
  intro a
  induction a with
  | nil => intro b c _ _; rfl
  | cons x as ih =>
    intro b c hab hbc
    cases b with
    | nil => simp [lexLe] at hab
    | cons y bs =>
      cases c with
      | nil => simp [lexLe] at hbc
      | cons z cs =>
        simp only [lexLe] at hab hbc ⊢
        have key1 : x.toNat < y.toNat ∨ (x.toNat = y.toNat ∧ lexLe as bs = true) := by
          by_cases h1 : x.toNat < y.toNat
          · exact Or.inl h1
          · by_cases h2 : y.toNat < x.toNat
            · rw [if_neg h1, if_pos h2] at hab
              simp at hab
            · rw [if_neg h1, if_neg h2] at hab
              exact Or.inr ⟨by omega, hab⟩
        have key2 : y.toNat < z.toNat ∨ (y.toNat = z.toNat ∧ lexLe bs cs = true) := by
          by_cases h1 : y.toNat < z.toNat
          · exact Or.inl h1
          · by_cases h2 : z.toNat < y.toNat
            · rw [if_neg h1, if_pos h2] at hbc
              simp at hbc
            · rw [if_neg h1, if_neg h2] at hbc
              exact Or.inr ⟨by omega, hbc⟩
        rcases key1 with h1 | ⟨he1, hl1⟩ <;> rcases key2 with h2 | ⟨he2, hl2⟩
        · rw [if_pos (by omega : x.toNat < z.toNat)]
        · rw [if_pos (by omega : x.toNat < z.toNat)]
        · rw [if_pos (by omega : x.toNat < z.toNat)]
        · rw [if_neg (by omega : ¬ x.toNat < z.toNat),
            if_neg (by omega : ¬ z.toNat < x.toNat)]
          exact ih bs cs hl1 hl2

theorem sortArtists_sorted (l : List String) :
    (sortArtists l).Pairwise (fun a b => strLe a b = true) := by
  haveI : IsTotal String (fun a b => strLe a b = true) :=
    ⟨fun a b => lexLe_total a.data b.data⟩
  haveI : IsTrans String (fun a b => strLe a b = true) :=
    ⟨fun a b c => lexLe_trans a.data b.data c.data⟩
  exact List.sorted_insertionSort (fun a b => strLe a b = true) l

theorem sortArtists_nodup {l : List String} (h : l.Nodup) :
    (sortArtists l).Nodup :=
  (List.perm_insertionSort (fun a b => strLe a b = true) l).nodup_iff.mpr h

theorem drop_duplicates_names (docs : List Document) :
    ∀ seen, ((drop_duplicates docs seen).map Prod.fst).Nodup ∧
      ∀ x ∈ (drop_duplicates docs seen).map Prod.fst, x ∉ seen := by
  induction docs with
  | nil => intro seen; simp [drop_duplicates]
  | cons d rest ih =>
    intro seen
    rw [drop_duplicates]
    by_cases h : d.1 ∈ seen
    · rw [if_pos h]
      exact ih seen
    · rw [if_neg h]
      obtain ⟨hnd, hni⟩ := ih (d.1 :: seen)
      refine ⟨?_, ?_⟩
      · rw [List.map_cons]
        refine List.nodup_cons.mpr ⟨fun hmem => ?_, hnd⟩
        exact hni d.1 hmem (List.mem_cons_self _ _)
      · intro x hx
        rw [List.map_cons, List.mem_cons] at hx
        rcases hx with rfl | hx
        · exact h
        · exact fun hxseen => hni x hx (List.mem_cons_of_mem _ hxseen)

theorem filterMap_fst_sublist {α β : Type} (f : α → Option (α × β))
    (hf : ∀ a p, f a = some p → p.1 = a) (l : List α) :
    ((l.filterMap f).map Prod.fst).Sublist l := by
  induction l with
  | nil => simp
  | cons a l ih =>
    rw [List.filterMap_cons]
    cases hfa : f a with
    | none => exact ih.cons a
    | some p =>
      rw [List.map_cons, hf a p hfa]
      exact ih.cons₂ a

theorem mentioned_artists_entries_fst_sublist (roster : List String)
    (src text : String) :
    ((mentioned_artists_entries roster src text).map Prod.fst).Sublist roster := by
  refine filterMap_fst_sublist _ (fun a p hp => ?_) roster
  by_cases h1 : src = a
  · rw [if_pos h1] at hp
    cases hp
  · rw [if_neg h1] at hp
    by_cases h2 : 0 < number_of_mentions_via_hyperlink text a
    · rw [if_pos h2] at hp
      cases hp
      rfl
    · rw [if_neg h2] at hp
      cases hp

/-- Membership in a row's entry list, characterized. -/
theorem mem_mentioned_artists_entries {roster : List String}
    {src text t : String} {c : Nat} :
    (t, c) ∈ mentioned_artists_entries roster src text ↔
      t ∈ roster ∧ src ≠ t ∧ 0 < number_of_mentions_via_hyperlink text t ∧
        c = number_of_mentions text t := by
  simp only [mentioned_artists_entries, List.mem_filterMap]
  constructor
  · rintro ⟨a, ha, hfa⟩
    by_cases h1 : src = a
    · rw [if_pos h1] at hfa
      cases hfa
    · rw [if_neg h1] at hfa
      by_cases h2 : 0 < number_of_mentions_via_hyperlink text a
      · rw [if_pos h2] at hfa
        rw [Option.some.injEq, Prod.mk.injEq] at hfa
        obtain ⟨rfl, rfl⟩ := hfa
        exact ⟨ha, h1, h2, rfl⟩
      · rw [if_neg h2] at hfa
        cases hfa
  · rintro ⟨ht, hne, hpos, rfl⟩
    exact ⟨t, ht, by rw [if_neg hne, if_pos hpos]⟩

/-! ### Helper lemmas on the selection loop -/

theorem selection_loop_fst (table : List MatrixRow) (n : Nat) :
    ∀ sel rel : Finset String, rel ⊆ sel →
      (selection_loop table n (sel, rel)).1 = (selection_step table)^[n] sel := by
  induction n with
  | zero => intro sel rel _; rfl
  | succ n ih =>
    intro sel rel h
    rw [selection_loop]
    have hrel2 : rel ∪ sel.biUnion (artists_that_mention table) ⊆
        sel ∪ (rel ∪ sel.biUnion (artists_that_mention table)) :=
      Finset.subset_union_right
    rw [ih _ _ hrel2]
    have hsel : sel ∪ (rel ∪ sel.biUnion (artists_that_mention table)) =
        selection_step table sel := by
      rw [selection_step, ← Finset.union_assoc, Finset.union_eq_left.mpr h]
    rw [hsel, Function.iterate_succ_apply]

theorem selected_artists_eq_iterate (table : List MatrixRow) (root : String)
    (depth : Nat) :
    selected_artists table root depth = (selection_step table)^[depth] {root} :=
  selection_loop_fst table depth {root} ∅ (Finset.empty_subset _)

theorem selection_step_subset {table : List MatrixRow} {s t : Finset String}
    (h : s ⊆ t) : selection_step table s ⊆ selection_step table t :=
  Finset.union_subset_union h
    (Finset.biUnion_subset_biUnion_of_subset_left (artists_that_mention table) h)

theorem subset_selection_step (table : List MatrixRow) (s : Finset String) :
    s ⊆ selection_step table s :=
  Finset.subset_union_left

theorem iterate_selection_step_subset (table : List MatrixRow) (k : Nat) :
    ∀ {s t : Finset String}, s ⊆ t →
      (selection_step table)^[k] s ⊆ (selection_step table)^[k] t := by
  induction k with
  | zero => intro s t h; exact h
  | succ k ih =>
    intro s t h
    rw [Function.iterate_succ_apply, Function.iterate_succ_apply]
    exact ih (selection_step_subset h)

theorem subset_iterate_selection_step (table : List MatrixRow) (k : Nat)
    (s : Finset String) : s ⊆ (selection_step table)^[k] s := by
  induction k with
  | zero => exact fun x hx => hx
  | succ k ih =>
    rw [Function.iterate_succ_apply']
    exact ih.trans (subset_selection_step table _)

theorem mem_selection_step {table : List MatrixRow} {sel : Finset String}
    {x : String} :
    x ∈ selection_step table sel ↔
      x ∈ sel ∨ ∃ p ∈ table, p.1 = x ∧
        ∃ a ∈ sel, listContains p.2.data a.data = true := by
  simp only [selection_step, Finset.mem_union, Finset.mem_biUnion,
    artists_that_mention, List.mem_toFinset, List.mem_map, List.mem_filter]
  constructor
  · rintro (hx | ⟨a, ha, p, ⟨hp, hc⟩, rfl⟩)
    · exact Or.inl hx
    · exact Or.inr ⟨p, hp, rfl, a, ha, hc⟩
  · rintro (hx | ⟨p, hp, rfl, a, ha, hc⟩)
    · exact Or.inl hx
    · exact Or.inr ⟨a, ha, p, ⟨hp, hc⟩, rfl⟩

/-! ### Helper lemmas on the emission loop -/

theorem pySplit_two_of_mem {sep : Char} {l : List Char} (h : sep ∈ l) :
    ∃ a b t, pySplit sep l = a :: b :: t := by
  induction l with
  | nil => cases h
  | cons c rest ih =>
    rw [pySplit]
    by_cases hc : c = sep
    · rw [if_pos hc]
      cases q : pySplit sep rest with
      | nil => exact absurd q (pySplit_ne_nil sep rest)
      | cons a t => exact ⟨[], a, t, rfl⟩
    · rw [List.mem_cons] at h
      rcases h with h | h
      · exact absurd h.symm hc
      · obtain ⟨a, b, t, q⟩ := ih h
        rw [if_neg hc, q]
        exact ⟨c :: a, b, t, rfl⟩

theorem process_related_artist_no_colon {sel : Finset String} {S : String}
    {tok : List Char} (h : ':' ∉ tok) :
    process_related_artist sel S tok =
      if String.mk tok ∈ sel then .error () else .ok none := by
  rw [process_related_artist, pySplit_of_not_mem h]

theorem process_related_artist_colon_ok {sel : Finset String} {S : String}
    {tok : List Char} (h : ':' ∈ tok) :
    ∃ r, process_related_artist sel S tok = .ok r := by
  obtain ⟨a, b, t, q⟩ := pySplit_two_of_mem h
  rw [process_related_artist, q]
  dsimp only
  by_cases hm : String.mk a ∈ sel
  · exact ⟨some (S, String.mk a, String.mk b), by rw [if_pos hm]⟩
  · exact ⟨none, by rw [if_neg hm]⟩

theorem process_related_artist_ok_some {sel : Finset String} {S : String}
    {tok : List Char} {e : GraphEdge}
    (h : process_related_artist sel S tok = .ok (some e)) :
    e.1 = S ∧ e.2.1 ∈ sel := by
  rw [process_related_artist] at h
  cases q : pySplit ':' tok with
  | nil => rw [q] at h; cases h
  | cons name rest =>
    rw [q] at h
    dsimp only at h
    by_cases hm : String.mk name ∈ sel
    · rw [if_pos hm] at h
      cases rest with
      | nil => cases h
      | cons cnt rs =>
        rw [Except.ok.injEq, Option.some.injEq] at h
        rw [← h]
        exact ⟨rfl, hm⟩
    · rw [if_neg hm] at h
      cases h

theorem process_related_artist_root_token {sel : Finset String} {S root w : String}
    (h1 : ':' ∉ root.data) (h2 : ':' ∉ w.data) (hm : root ∈ sel) :
    process_related_artist sel S (root.data ++ ':' :: w.data) =
      .ok (some (S, root, w)) := by
  rw [process_related_artist, pySplit_append _ h1, pySplit_of_not_mem h2]
  dsimp only
  rw [if_pos hm]

theorem except_map_ok {α β : Type} {g : α → β} {x : Except Unit α} {y : β} :
    x.map g = .ok y ↔ ∃ b, x = .ok b ∧ y = g b := by
  cases x with
  | error e => simp [Except.map]
  | ok a =>
    simp only [Except.map, Except.ok.injEq]
    constructor
    · intro h
      exact ⟨a, rfl, h.symm⟩
    · rintro ⟨b, hb, rfl⟩
      rw [hb]

theorem process_selected_artist_ok {sel : Finset String} {S row : String}
    (hw : ∀ tok ∈ pySplit ';' row.data, ':' ∈ tok ∨ String.mk tok ∉ sel) :
    ∃ es, process_selected_artist sel S row = .ok es := by
  obtain ⟨bs, hbs⟩ :=
    mapE_ok_of_forall (f := process_related_artist sel S)
      (l := pySplit ';' row.data) (fun tok htok => by
        rcases hw tok htok with hc | hns
        · exact process_related_artist_colon_ok hc
        · by_cases hc2 : ':' ∈ tok
          · exact process_related_artist_colon_ok hc2
          · exact ⟨none, by rw [process_related_artist_no_colon hc2, if_neg hns]⟩)
  exact ⟨bs.filterMap id, by rw [process_selected_artist, hbs]; rfl⟩

theorem mem_process_selected_artist {sel : Finset String} {S row : String}
    {es : List GraphEdge} {tok : List Char} {e : GraphEdge}
    (h : process_selected_artist sel S row = .ok es)
    (htok : tok ∈ pySplit ';' row.data)
    (he : process_related_artist sel S tok = .ok (some e)) : e ∈ es := by
  rw [process_selected_artist] at h
  obtain ⟨bs, hbs, rfl⟩ := except_map_ok.mp h
  obtain ⟨b, hb, hfb⟩ := mem_of_mapE_ok hbs htok
  have hbe : some e = b := by
    have := he.symm.trans hfb
    rw [Except.ok.injEq] at this
    exact this
  rw [List.mem_filterMap]
  exact ⟨some e, hbe ▸ hb, rfl⟩

theorem of_mem_process_selected_artist {sel : Finset String} {S row : String}
    {es : List GraphEdge} {e : GraphEdge}
    (h : process_selected_artist sel S row = .ok es) (he : e ∈ es) :
    ∃ tok ∈ pySplit ';' row.data,
      process_related_artist sel S tok = .ok (some e) := by
  rw [process_selected_artist] at h
  obtain ⟨bs, hbs, rfl⟩ := except_map_ok.mp h
  rw [List.mem_filterMap] at he
  obtain ⟨o, ho, hoe⟩ := he
  simp only [id] at hoe
  subst hoe
  obtain ⟨tok, htok, hft⟩ := of_mem_mapE_ok hbs ho
  exact ⟨tok, htok, hft⟩

theorem build_graph_rows_ok {table : List MatrixRow} {sel : Finset String}
    (hw : ∀ p ∈ table, p.1 ∈ sel →
      ∀ tok ∈ pySplit ';' p.2.data, ':' ∈ tok ∨ String.mk tok ∉ sel) :
    ∃ edges, build_graph_rows table sel = .ok edges := by
  obtain ⟨bs, hbs⟩ :=
    mapE_ok_of_forall (f := fun p : MatrixRow => process_selected_artist sel p.1 p.2)
      (l := table.filter fun p => p.1 ∈ sel) (fun p hp => by
        rw [List.mem_filter, decide_eq_true_eq] at hp
        exact process_selected_artist_ok (hw p hp.1 hp.2))
  exact ⟨bs.flatten, by rw [build_graph_rows, hbs]; rfl⟩

theorem mem_build_graph_rows {table : List MatrixRow} {sel : Finset String}
    {edges : List GraphEdge} {p : MatrixRow} {es : List GraphEdge} {e : GraphEdge}
    (h : build_graph_rows table sel = .ok edges) (hp : p ∈ table)
    (hpsel : p.1 ∈ sel) (hes : process_selected_artist sel p.1 p.2 = .ok es)
    (he : e ∈ es) : e ∈ edges := by
  rw [build_graph_rows] at h
  obtain ⟨bs, hbs, rfl⟩ := except_map_ok.mp h
  have hpf : p ∈ table.filter fun p => p.1 ∈ sel := by
    rw [List.mem_filter, decide_eq_true_eq]
    exact ⟨hp, hpsel⟩
  obtain ⟨b, hb, hfb⟩ := mem_of_mapE_ok hbs hpf
  have hbe : es = b := by
    have := hes.symm.trans hfb
    rw [Except.ok.injEq] at this
    exact this
  rw [List.mem_flatten]
  exact ⟨es, hbe ▸ hb, he⟩

theorem of_mem_build_graph_rows {table : List MatrixRow} {sel : Finset String}
    {edges : List GraphEdge} {e : GraphEdge}
    (h : build_graph_rows table sel = .ok edges) (he : e ∈ edges) :
    ∃ p ∈ table, p.1 ∈ sel ∧
      ∃ es, process_selected_artist sel p.1 p.2 = .ok es ∧ e ∈ es := by
  rw [build_graph_rows] at h
  obtain ⟨bs, hbs, rfl⟩ := except_map_ok.mp h
  rw [List.mem_flatten] at he
  obtain ⟨es, hes, hees⟩ := he
  obtain ⟨p, hp, hfp⟩ := of_mem_mapE_ok hbs hes
  rw [List.mem_filter, decide_eq_true_eq] at hp
  exact ⟨p, hp.1, hp.2, es, hfp, hees⟩

theorem process_article_ok_fst {roster : List String} {d : Document}
    {b : String × List (String × Nat)}
    (h : process_wikipedia_articles_parallel roster d = .ok b) : b.1 = d.1 := by
  rw [process_wikipedia_articles_parallel] at h
  cases hd : d.2 with
  | none =>
    rw [hd] at h
    dsimp only at h
    split at h
    · cases h
    · rw [Except.ok.injEq] at h
      rw [← h]
  | some text =>
    rw [hd] at h
    rw [Except.ok.injEq] at h
    rw [← h]

/-! ### The claims -/

/-- C1: if a document's text contains no occurrence of any gate pattern of
a candidate `T` (the bracketed forms of `T` and of its lower-cased-first-
word variant), then the mention counter emits no entry for `T`, however
many unlinked occurrences of `T`'s parenthesis-stripped name the text
has. -/
theorem C1_gate_zero_no_entry (roster : List String) (src text T : String)
    (h : ∀ p ∈ gatePatterns T, pyCount text p = 0) :
    T ∉ (mentioned_artists_entries roster src text).map Prod.fst := by
  intro hmem
  rw [List.mem_map] at hmem
  obtain ⟨p, hp, hfst⟩ := hmem
  obtain ⟨_, _, hpos, _⟩ :=
    mem_mentioned_artists_entries.mp (show (p.1, p.2) ∈ _ from hp)
  rw [hfst] at hpos
  have h1 : pyCount text ("[[" ++ T ++ "]]") = 0 := h _ (by simp [gatePatterns])
  have h2 : pyCount text ("[[" ++ T ++ "|") = 0 := h _ (by simp [gatePatterns])
  have hz : number_of_mentions_via_hyperlink text T = 0 := by
    unfold number_of_mentions_via_hyperlink
    cases hv : theVariant T with
    | none => simp only [hv, h1, h2]
    | some v =>
      have h3 : pyCount text ("[[" ++ v ++ "]]") = 0 :=
        h _ (by simp [gatePatterns, hv])
      simp only [hv, h1, h2, h3]
  omega

/-- C1 witness: a text with two unlinked occurrences of `"B"` but no gate
pattern yields no entry for `"B"`. -/
theorem C1_gate_zero_no_entry_check :
    "B" ∉ (mentioned_artists_entries ["A", "B"] "A" "B and B again").map Prod.fst :=
  C1_gate_zero_no_entry ["A", "B"] "A" "B and B again" "B" (by decide)

/-- C2 counterexample: with the one-row table `X ↦ "Boston (band):3"` and
root `"Boston"`, the first round adds `X` to the selected set although no
already-selected artist (only `"Boston"` is) occurs as a target token of
`X`'s edge list — the scan matches `"Boston"` as a substring of
`"Boston (band)"`. -/
theorem C2_substring_not_token_counterexample :
    selected_artists [("X", "Boston (band):3")] "Boston" 0 = {"Boston"} ∧
    "X" ∈ selected_artists [("X", "Boston (band):3")] "Boston" 1 ∧
    "Boston" ∉ target_tokens "Boston (band):3" := by decide

/-- C2 amended: in every round, an artist `S` is added to the selected set
iff some already-selected artist's name occurs as a *substring* of `S`'s
serialized outgoing edge list (not by target-token membership). -/
theorem C2_frontier_growth_substring (table : List MatrixRow) (root S : String)
    (k : Nat) :
    S ∈ selected_artists table root (k + 1) ↔
      S ∈ selected_artists table root k ∨
        ∃ p ∈ table, p.1 = S ∧
          ∃ a ∈ selected_artists table root k,
            listContains p.2.data a.data = true := by
  rw [selected_artists_eq_iterate, selected_artists_eq_iterate,
    Function.iterate_succ_apply']
  exact mem_selection_step

/-- C3: the source's hyperlink evidence for a `"The"`-name diverges from
the spec's sum of four patterns: on `"[[the Kinks|the Who]] text"` the
source counts 0 (missing the lower-cased pipe pattern, so the gate fails)
where the spec counts 1, and on `"[[The Kinks|TK]]"` the source counts 2
(the capitalized pipe pattern twice) where the spec counts 1. -/
theorem C3_the_variant_evidence_divergence :
    number_of_mentions_via_hyperlink "[[the Kinks|the Who]] text" "The Kinks" = 0 ∧
    spec_hyperlink_evidence "[[the Kinks|the Who]] text" "The Kinks" = 1 ∧
    number_of_mentions_via_hyperlink "[[The Kinks|TK]]" "The Kinks" = 2 ∧
    spec_hyperlink_evidence "[[The Kinks|TK]]" "The Kinks" = 1 := by decide

/-- C4: on the Boston scenario the gate passes with hyperlink evidence 1,
but the emitted count is 2, not 3: the parenthesis-stripped name is
`"Boston "` with a trailing blank, which misses the final `"Boston."`. -/
theorem C4_boston_disambiguation_count :
    number_of_mentions_via_hyperlink
      "[[Boston (band)]] Boston played in Boston." "Boston (band)" = 1 ∧
    mentioned_artists_entries ["Boston (band)", "Sample Artist"] "Sample Artist"
      "[[Boston (band)]] Boston played in Boston." = [("Boston (band)", 2)] ∧
    removeParens "Boston (band)" = "Boston " := by decide

/-- C5 counterexample: a target whose parenthesis-stripped name does not
occur verbatim (an interior parenthetical leaves two blanks) passes the
gate and is emitted with count 0, so a serialized row can contain a
`target:0` token. -/
theorem C5_zero_count_token_emitted :
    ("Foo (x) Bar", 0) ∈
      mentioned_artists_entries ["Foo (x) Bar"] "Src" "[[Foo (x) Bar]] ok" ∧
    mentioned_artists_string ["Foo (x) Bar"] "Src" "[[Foo (x) Bar]] ok" =
      "Foo (x) Bar:0" := by decide

/-- C5 amended: an entry is emitted for `T` iff `T` is a roster candidate
other than the source with positive hyperlink evidence, and its count is
the full count — which can be 0. -/
theorem C5_entry_characterization (roster : List String) (src text t : String)
    (c : Nat) :
    (t, c) ∈ mentioned_artists_entries roster src text ↔
      t ∈ roster ∧ src ≠ t ∧ 0 < number_of_mentions_via_hyperlink text t ∧
        c = number_of_mentions text t :=
  mem_mentioned_artists_entries

/-- C6 counterexample: one document with a missing text cell makes the
whole build fail instead of being skipped. -/
theorem C6_missing_text_fatal :
    build_matrix [("A", some "x"), ("B", none)] = .error () := rfl

/-- C6 amended: a deduplicated document with a missing text cell is not
skipped and produces no warning: it aborts the whole build as soon as the
roster holds any other artist's name (the worker's NaN text crashes on the
first other-named candidate and `pool.map` re-raises).  Only in the
degenerate case of a lone missing-text document does the candidate loop
never touch the text, yielding an empty row; and when every text is
present the build completes with one row per deduplicated document. -/
theorem C6_missing_text_aborts_build (docs : List Document) :
    ((∃ d ∈ drop_duplicates docs [], d.2 = none ∧
        ∃ d2 ∈ drop_duplicates docs [], d2.1 ≠ d.1) →
      build_matrix docs = .error ()) ∧
    (∀ name, drop_duplicates docs [] = [(name, none)] →
      build_matrix docs = .ok [(name, [])]) ∧
    ((∀ d ∈ drop_duplicates docs [], d.2 ≠ none) →
      ∃ rows, build_matrix docs = .ok rows ∧
        rows.map Prod.fst = (drop_duplicates docs []).map Prod.fst) := by
  refine ⟨?_, ?_, ?_⟩
  · rintro ⟨d, hd, hnone, d2, hd2, hne⟩
    have hmem : d2.1 ∈ sortArtists ((drop_duplicates docs []).map Prod.fst) := by
      have h1 : d2.1 ∈ (drop_duplicates docs []).map Prod.fst :=
        List.mem_map.mpr ⟨d2, hd2, rfl⟩
      exact ((List.perm_insertionSort _ _).mem_iff).mpr h1
    have hfail : process_wikipedia_articles_parallel
        (sortArtists ((drop_duplicates docs []).map Prod.fst)) d = .error () := by
      rw [process_wikipedia_articles_parallel, hnone]
      dsimp only
      rw [if_pos (List.any_eq_true.mpr ⟨d2.1, hmem, decide_eq_true (Ne.symm hne)⟩)]
    exact mapE_error_of_mem hd hfail
  · intro name hdd
    have hone : process_wikipedia_articles_parallel (sortArtists [name])
        (name, (none : Option String)) = .ok (name, []) := by
      rw [process_wikipedia_articles_parallel]
      dsimp only
      rw [if_neg]
      intro hany
      rw [List.any_eq_true] at hany
      obtain ⟨x, hx, hdx⟩ := hany
      have hx1 : x = name := by
        have := ((List.perm_insertionSort _ _).mem_iff).mp hx
        rw [List.mem_singleton] at this
        exact this
      rw [decide_eq_true_eq] at hdx
      exact hdx hx1.symm
    have hshow : build_matrix docs =
        mapE (process_wikipedia_articles_parallel
          (sortArtists ((drop_duplicates docs []).map Prod.fst)))
          (drop_duplicates docs []) := rfl
    rw [hshow, hdd]
    dsimp only [List.map]
    rw [mapE, hone]
    rfl
  · intro hall
    obtain ⟨rows, hrows⟩ :=
      mapE_ok_of_forall
        (f := process_wikipedia_articles_parallel
          (sortArtists ((drop_duplicates docs []).map Prod.fst)))
        (l := drop_duplicates docs []) (fun d hd => by
          cases ht : d.2 with
          | none => exact absurd ht (hall d hd)
          | some text =>
            exact ⟨_, by rw [process_wikipedia_articles_parallel, ht]⟩)
    exact ⟨rows, hrows,
      mapE_ok_map Prod.fst Prod.fst (fun a b hb => process_article_ok_fst hb) hrows⟩

/-- C6 witness: the amended claim at three concrete document lists — a
fatal missing text next to another artist, a lone missing-text document
that still yields its empty row, and an all-present build. -/
theorem C6_missing_text_aborts_build_check :
    build_matrix [("A", some ""), ("B", none), ("A", some "z")] = .error () ∧
    build_matrix [("E", none), ("E", some "x")] = .ok [("E", [])] ∧
    ∃ rows, build_matrix [("C", some "x"), ("D", some "")] = .ok rows ∧
      rows.map Prod.fst =
        (drop_duplicates [("C", some "x"), ("D", some "")] []).map Prod.fst :=
  ⟨(C6_missing_text_aborts_build _).1
      ⟨("B", none), by decide, rfl, ("A", some ""), by decide, by decide⟩,
   (C6_missing_text_aborts_build _).2.1 "E" (by decide),
   (C6_missing_text_aborts_build _).2.2 (by decide)⟩

/-- C7 counterexample: the row of `X` holds the token `"Boston"` with no
`':'`; once `"Boston"` is selected, emitting `X`'s row raises (IndexError
on `rsplit(":")[1]`), aborting the whole extraction rather than skipping
the token. -/
theorem C7_malformed_token_raises :
    build_graph_mentions_to_root [("Boston", ""), ("X", "Boston")] "Boston" 1 =
      .error () := rfl

/-- C7 amended: a token with no `':'` is silently dropped when its whole
text is not a selected name (the membership test fails before the count
field is read); when its text *is* selected, the extractor raises. -/
theorem C7_malformed_token_selected_or_skipped (sel : Finset String)
    (S : String) (tok : List Char) (h : ':' ∉ tok) :
    process_related_artist sel S tok =
      if String.mk tok ∈ sel then .error () else .ok none :=
  process_related_artist_no_colon h

/-- C7 witness: both branches of the amended claim at concrete tokens. -/
theorem C7_malformed_token_check :
    process_related_artist ({"Boston"} : Finset String) "X" "Dylan".data =
      .ok none ∧
    process_related_artist ({"Boston"} : Finset String) "X" "Boston".data =
      .error () := by
  constructor
  · rw [C7_malformed_token_selected_or_skipped _ _ _ (by decide)]
    rfl
  · rw [C7_malformed_token_selected_or_skipped _ _ _ (by decide)]
    rfl

/-- C8 counterexample: with a root absent from the table, extraction can
still raise — the row of `X` holds the colon-less token `"Boston"`, which
is selected, so the emission loop raises. -/
theorem C8_missing_root_malformed_raises :
    build_graph_mentions_to_root [("X", "Boston")] "Boston" 1 = .error () := rfl

/-- C8 amended: for a root that is not a table key (and has no `':'` in its
name), provided no colon-less row token is itself a selected name,
extraction does not raise: the root is seeded into the selected set,
contributes no outgoing edge, and every well-formed token `root:w` of any
row is still emitted as an edge into the root. -/
theorem C8_missing_root_extraction (table : List MatrixRow) (root : String)
    (depth : Nat) (hroot : root ∉ table.map Prod.fst) (hc : ':' ∉ root.data)
    (hdepth : 1 ≤ depth)
    (hwf : ∀ p ∈ table, ∀ tok ∈ pySplit ';' p.2.data,
      ':' ∈ tok ∨ String.mk tok ∉ selected_artists table root depth) :
    root ∈ selected_artists table root depth ∧
    ∃ edges, build_graph_mentions_to_root table root depth = .ok edges ∧
      (∀ e ∈ edges, e.1 ≠ root) ∧
      ∀ p ∈ table, ∀ w : String, ':' ∉ w.data →
        (root.data ++ ':' :: w.data) ∈ pySplit ';' p.2.data →
        (p.1, root, w) ∈ edges := by
  have hrootsel : root ∈ selected_artists table root depth := by
    rw [selected_artists_eq_iterate]
    exact subset_iterate_selection_step table depth {root}
      (Finset.mem_singleton_self root)
  refine ⟨hrootsel, ?_⟩
  obtain ⟨edges, hedges⟩ :=
    build_graph_rows_ok (fun p hp _ tok htok => hwf p hp tok htok)
  refine ⟨edges, hedges, ?_, ?_⟩
  · intro e he hfst
    obtain ⟨p, hp, _, es, hes, hees⟩ := of_mem_build_graph_rows hedges he
    obtain ⟨tok, htok, hok⟩ := of_mem_process_selected_artist hes hees
    obtain ⟨he1, _⟩ := process_related_artist_ok_some hok
    apply hroot
    rw [List.mem_map]
    exact ⟨p, hp, by rw [← he1, hfst]⟩
  · intro p hp w hwc htokmem
    have hinfix : root.data <:+: p.2.data := by
      have h1 : root.data <+: root.data ++ ':' :: w.data := ⟨':' :: w.data, rfl⟩
      exact h1.isInfix.trans (infix_of_mem_pySplit htokmem)
    have hpsel : p.1 ∈ selected_artists table root depth := by
      rw [selected_artists_eq_iterate]
      obtain ⟨d, rfl⟩ : ∃ d, depth = d + 1 := ⟨depth - 1, by omega⟩
      rw [Function.iterate_succ_apply']
      rw [mem_selection_step]
      refine Or.inr ⟨p, hp, rfl, root, ?_, listContains_of_infix hinfix⟩
      exact subset_iterate_selection_step table d {root}
        (Finset.mem_singleton_self root)
    obtain ⟨es, hes⟩ :=
      process_selected_artist_ok (fun tok htok => hwf p hp tok htok)
    exact mem_build_graph_rows hedges hp hpsel hes
      (mem_process_selected_artist hes htokmem
        (process_related_artist_root_token hc hwc hrootsel))

/-- C8 witness: the amended claim at a concrete well-formed table whose
root `"Boston"` is not a key. -/
theorem C8_missing_root_extraction_check :
    "Boston" ∈ selected_artists [("X", "Boston:2")] "Boston" 1 ∧
    ∃ edges,
      build_graph_mentions_to_root [("X", "Boston:2")] "Boston" 1 = .ok edges ∧
      (∀ e ∈ edges, e.1 ≠ "Boston") ∧
      ∀ p ∈ [(("X" : String), ("Boston:2" : String))], ∀ w : String,
        ':' ∉ w.data → ("Boston".data ++ ':' :: w.data) ∈ pySplit ';' p.2.data →
        (p.1, "Boston", w) ∈ edges :=
  C8_missing_root_extraction [("X", "Boston:2")] "Boston" 1
    (by decide) (by decide) (by decide) (by decide)

/-- C9: for a fixed table and root, the selected set at depth `k ≥ 1` is
contained in the selected set at depth `k + 1`. -/
theorem C9_selected_monotone (table : List MatrixRow) (root : String) (k : Nat)
    (h : 1 ≤ k) :
    selected_artists table root k ⊆ selected_artists table root (k + 1) := by
  rw [selected_artists_eq_iterate, selected_artists_eq_iterate,
    Function.iterate_succ_apply]
  exact iterate_selection_step_subset table k (subset_selection_step table {root})

/-- C9 witness: monotonicity at a concrete table, root and depth 1. -/
theorem C9_selected_monotone_check :
    selected_artists [("A", "B:1"), ("B", "")] "B" 1 ⊆
      selected_artists [("A", "B:1"), ("B", "")] "B" 2 :=
  C9_selected_monotone [("A", "B:1"), ("B", "")] "B" 1 (by decide)

/-- C10: in every row the build produces, the target names appear in
ascending code-point order without repetition: the worker iterates the
globally sorted, duplicate-free roster, and a row's names form a sublist
of it. -/
theorem C10_row_targets_sorted (docs : List Document)
    (rows : List (String × List (String × Nat)))
    (h : build_matrix docs = .ok rows) (r : String × List (String × Nat))
    (hr : r ∈ rows) :
    (r.2.map Prod.fst).Pairwise (fun a b => strLe a b = true) ∧
      (r.2.map Prod.fst).Nodup := by
  have h2 : mapE (process_wikipedia_articles_parallel
      (sortArtists ((drop_duplicates docs []).map Prod.fst)))
      (drop_duplicates docs []) = .ok rows := h
  obtain ⟨d, hd, hfd⟩ := of_mem_mapE_ok h2 hr
  cases hdt : d.2 with
  | none =>
    rw [process_wikipedia_articles_parallel, hdt] at hfd
    dsimp only at hfd
    split at hfd
    · cases hfd
    · rw [Except.ok.injEq] at hfd
      have hr2 : r.2 = [] := by rw [← hfd]
      rw [hr2]
      simp
  | some text =>
    rw [process_wikipedia_articles_parallel, hdt] at hfd
    rw [Except.ok.injEq] at hfd
    have hr2 : r.2 = mentioned_artists_entries
        (sortArtists ((drop_duplicates docs []).map Prod.fst)) d.1 text := by
      rw [← hfd]
    rw [hr2]
    have hsub := mentioned_artists_entries_fst_sublist
      (sortArtists ((drop_duplicates docs []).map Prod.fst)) d.1 text
    have hnodup : (sortArtists ((drop_duplicates docs []).map Prod.fst)).Nodup :=
      sortArtists_nodup (drop_duplicates_names docs []).1
    exact ⟨List.Pairwise.sublist hsub (sortArtists_sorted _),
      List.Nodup.sublist hsub hnodup⟩

/-- C10 witness: the sortedness of a concrete build's row for `"B"`. -/
theorem C10_row_targets_sorted_check :
    ((([("A", 1), ("C", 1)] : List (String × Nat))).map Prod.fst).Pairwise
        (fun a b => strLe a b = true) ∧
      ((([("A", 1), ("C", 1)] : List (String × Nat))).map Prod.fst).Nodup :=
  C10_row_targets_sorted
    [("B", some "[[A]] [[C]]"), ("A", some ""), ("C", some "")]
    [("B", [("A", 1), ("C", 1)]), ("A", []), ("C", [])] rfl
    ("B", [("A", 1), ("C", 1)]) (by decide)

end WikipediaMusicTree
